import Mathlib

set_option maxRecDepth 8000

/-!
Shallow embedding of the `sysx` binary/hex codec modules
(`src/math/bin.rs`, `src/math/hex.rs`).

Rust strings are modelled as `List Char` (a Rust `char` and a Lean `Char`
are both Unicode scalar values); byte sequences are `List Nat` with values
below 256.  Fallible operations return `Except SysxError`; an operation
whose Rust body contains a potential panic site (`unwrap`, `unreachable!`,
slice indexing) is additionally wrapped in `Option`, with `none` marking
the panic.
-/

/-- Error type modelling `SysxError::InvalidSyntax(String)`, the only
variant these modules construct (the constructor is renamed `invalidStx`
here).  Messages built with `format!("... {e}")` in the source are
modelled by their constant prefix. -/
inductive SysxError where
| invalidStx (msg : String)
deriving DecidableEq

/-- Unicode `White_Space` property, the set tested by Rust
`char::is_whitespace`. -/
def rustIsWhitespace (c : Char) : Bool :=
  let n := c.toNat
  (0x9 ≤ n && n ≤ 0xD) || n == 0x20 || n == 0x85 || n == 0xA0 || n == 0x1680 ||
  (0x2000 ≤ n && n ≤ 0x200A) || n == 0x2028 || n == 0x2029 || n == 0x202F ||
  n == 0x205F || n == 0x3000

/-- Rust `char::is_ascii_hexdigit`: `'0'..='9' | 'A'..='F' | 'a'..='f'`. -/
def isAsciiHexdigit (c : Char) : Bool :=
  (0x30 ≤ c.toNat && c.toNat ≤ 0x39) || (0x41 ≤ c.toNat && c.toNat ≤ 0x46) ||
  (0x61 ≤ c.toNat && c.toNat ≤ 0x66)

/-- The binary digit test `c == '0' || c == '1'` used throughout `bin.rs`. -/
def isBinDigit (c : Char) : Bool := c == '0' || c == '1'

/-- Rust `char::to_digit(16)`. -/
def toDigit16 (c : Char) : Option Nat :=
  if 0x30 ≤ c.toNat && c.toNat ≤ 0x39 then some (c.toNat - 0x30)
  else if 0x61 ≤ c.toNat && c.toNat ≤ 0x66 then some (c.toNat - 0x61 + 10)
  else if 0x41 ≤ c.toNat && c.toNat ≤ 0x46 then some (c.toNat - 0x41 + 10)
  else none

/-- UTF-8 encoding of one Unicode scalar value (Rust `char::encode_utf8`). -/
def utf8EncodeNat (v : Nat) : List Nat :=
  if v < 0x80 then [v]
  else if v < 0x800 then [0xC0 + v / 64, 0x80 + v % 64]
  else if v < 0x10000 then [0xE0 + v / 4096, 0x80 + v / 64 % 64, 0x80 + v % 64]
  else [0xF0 + v / 262144, 0x80 + v / 4096 % 64, 0x80 + v / 64 % 64, 0x80 + v % 64]

/-- Rust `str::as_bytes`: the UTF-8 byte sequence of a string. -/
def utf8Bytes : List Char → List Nat
  | [] => []
  | c :: cs => utf8EncodeNat c.toNat ++ utf8Bytes cs

/-- UTF-8 continuation byte test (`0x80..=0xBF`). -/
def isUtf8Cont (b : Nat) : Bool := 0x80 ≤ b && b < 0xC0

/-- One step of strict UTF-8 decoding, as validated by Rust
`String::from_utf8`: rejects stray continuation bytes, overlong forms
(lead bytes `0xC0`/`0xC1` and short values under longer lead bytes),
surrogate code points and values above `0x10FFFF`.  Returns the decoded
scalar value and the remaining bytes. -/
def utf8DecodeOne : List Nat → Option (Nat × List Nat)
  | [] => none
  | b0 :: rest =>
    if b0 < 0x80 then some (b0, rest)
    else if b0 < 0xC2 then none
    else if b0 < 0xE0 then
      match rest with
      | b1 :: rest1 =>
        if isUtf8Cont b1 then some ((b0 - 0xC0) * 64 + (b1 - 0x80), rest1) else none
      | [] => none
    else if b0 < 0xF0 then
      match rest with
      | b1 :: b2 :: rest2 =>
        if isUtf8Cont b1 && isUtf8Cont b2 then
          let v := (b0 - 0xE0) * 4096 + (b1 - 0x80) * 64 + (b2 - 0x80)
          if v < 0x800 then none
          else if 0xD800 ≤ v && v < 0xE000 then none
          else some (v, rest2)
        else none
      | _ => none
    else if b0 < 0xF5 then
      match rest with
      | b1 :: b2 :: b3 :: rest3 =>
        if isUtf8Cont b1 && isUtf8Cont b2 && isUtf8Cont b3 then
          let v := (b0 - 0xF0) * 262144 + (b1 - 0x80) * 4096 +
            (b2 - 0x80) * 64 + (b3 - 0x80)
          if v < 0x10000 then none
          else if 0x110000 ≤ v then none
          else some (v, rest3)
        else none
      | _ => none
    else none

/-- Fuelled decoding loop for `String::from_utf8`.  Each step consumes at
least one byte and one unit of fuel, so fuel equal to the byte count never
runs out. -/
def utf8DecodeAux : Nat → List Nat → Option (List Char)
  | _, [] => some []
  | 0, _ :: _ => none
  | fuel + 1, b :: bs =>
    match utf8DecodeOne (b :: bs) with
    | none => none
    | some (v, rest) =>
      match utf8DecodeAux fuel rest with
      | none => none
      | some cs => some (Char.ofNat v :: cs)

/-- Rust `String::from_utf8`: `some` of the decoded characters on valid
UTF-8 input, `none` on invalid input. -/
def fromUtf8 (l : List Nat) : Option (List Char) := utf8DecodeAux l.length l

/-- The scanning loop shared by `is_valid_bin_strict` (`bin.rs`) and
`check_strict` (`hex.rs`), parameterized by the digit test: returns the
final `(is_valid, count)` pair, breaking at the first character that is
neither a digit nor whitespace. -/
def strictLoop (digit : Char → Bool) : List Char → Nat → Bool × Nat
  | [], count => (true, count)
  | c :: cs, count =>
    if digit c then strictLoop digit cs (count + 1)
    else if rustIsWhitespace c then strictLoop digit cs count
    else (false, count)

/-- `chars.next().unwrap()` performed `n` times: takes exactly `n`
characters; `none` models the panic of `unwrap` on an exhausted iterator. -/
def takeN : Nat → List Char → Option (List Char × List Char)
  | 0, cs => some ([], cs)
  | _ + 1, [] => none
  | n + 1, c :: cs =>
    match takeN n cs with
    | none => none
    | some (g, r) => some (c :: g, r)

/-- The `for i in 0..(len / D)` grouping loop shared by `fmt_bin`
(`bin.rs`) and `format` (`hex.rs`): emits `count` groups of `width`
characters with a single `' '` before every group but the first. -/
def fmtLoop (width : Nat) : Nat → Bool → List Char → Option (List Char)
  | 0, _, _ => some []
  | count + 1, first, cs =>
    match takeN width cs with
    | none => none
    | some (g, r) =>
      match fmtLoop width count false r with
      | none => none
      | some rest => some ((if first then g else ' ' :: g) ++ rest)

namespace bin

/-- `clean_bin` from `bin.rs`: keep exactly the `'0'`/`'1'` characters. -/
def clean_bin (input : List Char) : List Char := input.filter isBinDigit

/-- The inner `for i in 0..8` loop of `bin_to_str`.  The first argument is
the number of remaining iterations `k = 8 - i`, so the Rust shift `7 - i`
is `k - 1` (written via the `k + 1` pattern).  `none` models the
`unreachable!()` panic on a non-binary character. -/
def binByteLoop : Nat → Nat → List Char → Option (Nat × List Char)
  | 0, byte, cs => some (byte, cs)
  | _ + 1, byte, [] => some (byte, [])
  | k + 1, byte, c :: cs =>
    if c == '1' then binByteLoop k (byte ||| (1 <<< k)) cs
    else if c == '0' then binByteLoop k byte cs
    else none

/-- The outer `while let Some(_) = chars.next()` loop of `bin_to_str`.
Note that, as in the source, the loop header consumes (and discards) one
character per iteration before the inner loop reads up to eight more.
Fuelled by the list length; each iteration consumes at least one
character, so the fuel never runs out. -/
def binBytesAux : Nat → List Char → Option (List Nat)
  | _, [] => some []
  | 0, _ :: _ => none
  | fuel + 1, _ :: rest =>
    match binByteLoop 8 0 rest with
    | none => none
    | some (byte, rest') =>
      match binBytesAux fuel rest' with
      | none => none
      | some bs => some (byte :: bs)

/-- Byte-assembly phase of `bin_to_str` on the cleaned digits. -/
def binBytes (cs : List Char) : Option (List Nat) := binBytesAux cs.length cs

/-- `bin_to_str` from `bin.rs`; `none` models a panic
(the `unreachable!()`). -/
def bin_to_str (bin : List Char) : Option (Except SysxError (List Char)) :=
  let cleaned := bin.filter isBinDigit
  let is_valid := bin.all fun c => isBinDigit c || rustIsWhitespace c
  if !is_valid then some (.error (.invalidStx "Non-binary character detected"))
  else if cleaned.length % 8 ≠ 0 then
    some (.error (.invalidStx "Binary string must have length multiple of 8"))
  else
    match binBytes cleaned with
    | none => none
    | some bytes =>
      match fromUtf8 bytes with
      | some s => some (.ok s)
      | none => some (.error (.invalidStx "Invalid UTF-8"))

/-- The `for shift in (0..8).rev()` loop body of `str_to_bin`: the eight
bits of a byte, most significant first. -/
def byteBits (byte : Nat) : List Char :=
  (List.range 8).reverse.map fun shift =>
    if (byte >>> shift) &&& 1 == 1 then '1' else '0'

/-- The byte loop of `str_to_bin` with its `if i > 0 { push(' ') }`
separator logic; `first` is true on the first iteration. -/
def strToBinLoop : Bool → List Nat → List Char
  | _, [] => []
  | first, b :: bs =>
    (if first then byteBits b else ' ' :: byteBits b) ++ strToBinLoop false bs

/-- `str_to_bin` from `bin.rs`. -/
def str_to_bin (text : List Char) : List Char := strToBinLoop true (utf8Bytes text)

/-- `is_valid_bin` from `bin.rs`. -/
def is_valid_bin (bin : List Char) : Bool :=
  !bin.isEmpty && bin.all fun c => rustIsWhitespace c || isBinDigit c

/-- `is_valid_bin_strict` from `bin.rs`. -/
def is_valid_bin_strict (bin : List Char) : Bool :=
  let r := strictLoop isBinDigit bin 0
  r.1 && decide (0 < r.2) && r.2 % 8 == 0

/-- `fmt_bin` from `bin.rs`; `none` models the `unwrap` panics. -/
def fmt_bin (bin : List Char) : Option (Except SysxError (List Char)) :=
  let cleaned := clean_bin bin
  let len := cleaned.length
  if len = 0 then some (.error (.invalidStx "Empty binary string"))
  else if len % 8 ≠ 0 then
    some (.error (.invalidStx "Binary string length must be multiple of 8"))
  else
    match fmtLoop 8 (len / 8) true cleaned with
    | none => none
    | some r => some (.ok r)

end bin

namespace hex

/-- `HEX_CHARS_UPPER` from `hex.rs`. -/
def HEX_CHARS_UPPER : List Char :=
  ['0', '1', '2', '3', '4', '5', '6', '7', '8', '9', 'A', 'B', 'C', 'D', 'E', 'F']

/-- `clean` from `hex.rs`: keep exactly the ASCII hex digits. -/
def clean (input : List Char) : List Char := input.filter isAsciiHexdigit

/-- The `while let (Some(c1), Some(c2))` byte-pair loop of `decode`.  The
`?`-propagated `to_digit` failure is an `InvalidSyntax` error (never taken
on cleaned input); a trailing lone character is dropped, as in the source. -/
def pairsLoop : List Char → Except SysxError (List Nat)
  | c1 :: c2 :: rest =>
    match toDigit16 c1 with
    | none => .error (.invalidStx "Invalid hex character")
    | some hi =>
      match toDigit16 c2 with
      | none => .error (.invalidStx "Invalid hex character")
      | some lo =>
        match pairsLoop rest with
        | .error e => .error e
        | .ok bs => .ok ((hi <<< 4 ||| lo) :: bs)
  | _ => .ok []

/-- `decode` from `hex.rs`.  Its body has no panic site, so it is a plain
`Except`. -/
def decode (input : List Char) : Except SysxError (List Char) :=
  let cleaned := input.filter isAsciiHexdigit
  let is_valid := input.all fun c => isAsciiHexdigit c || rustIsWhitespace c
  if !is_valid then .error (.invalidStx "Non-hex character detected")
  else if cleaned.length % 2 ≠ 0 then
    .error (.invalidStx "Hex string must have even length")
  else
    match pairsLoop cleaned with
    | .error e => .error e
    | .ok bytes =>
      match fromUtf8 bytes with
      | some s => .ok s
      | none => .error (.invalidStx "Invalid UTF-8")

/-- The byte loop of `encode` with its `i > 0` separator logic;
`List` indexing with `[_]?` models the (always in-range) slice indexing of
`HEX_CHARS_UPPER`, with `none` as the panic. -/
def encodeLoop : Bool → List Nat → Option (List Char)
  | _, [] => some []
  | first, b :: bs =>
    match HEX_CHARS_UPPER[b >>> 4]?, HEX_CHARS_UPPER[b &&& 0xF]? with
    | some c1, some c2 =>
      match encodeLoop false bs with
      | none => none
      | some rest => some ((if first then [c1, c2] else [' ', c1, c2]) ++ rest)
    | _, _ => none

/-- `encode` from `hex.rs`; `none` models an out-of-range table index
(impossible for `u8` input). -/
def encode (text : List Char) : Option (List Char) := encodeLoop true (utf8Bytes text)

/-- `check` from `hex.rs`. -/
def check (input : List Char) : Bool :=
  !input.isEmpty && input.all fun c => rustIsWhitespace c || isAsciiHexdigit c

/-- `check_strict` from `hex.rs`. -/
def check_strict (input : List Char) : Bool :=
  let r := strictLoop isAsciiHexdigit input 0
  r.1 && decide (0 < r.2) && r.2 % 2 == 0

/-- `format` from `hex.rs`; `none` models the `unwrap` panics. -/
def format (input : List Char) : Option (Except SysxError (List Char)) :=
  let cleaned := clean input
  let len := cleaned.length
  if len = 0 then some (.error (.invalidStx "Empty hex string"))
  else if len % 2 ≠ 0 then
    some (.error (.invalidStx "Hexadecimal string length must be a multiple of 2"))
  else
    match fmtLoop 2 (len / 2) true cleaned with
    | none => none
    | some r => some (.ok r)

end hex

/-- Digit character for value `d` in the uppercase table, total form of the
`HEX_CHARS_UPPER[...]` indexing done by `encode` (in range for `d < 16`). -/
def hexUpperDigit (d : Nat) : Char := hex.HEX_CHARS_UPPER.getD d '0'

/-- The two uppercase hex digit characters `encode` pushes for byte `b`. -/
def hexPair (b : Nat) : List Char := [hexUpperDigit (b / 16), hexUpperDigit (b % 16)]

/-- Groups joined with a single `' '` before every group but the first:
the shape produced by the `if i > 0 { result.push(' ') }` loops. -/
def joinSp : Bool → List (List Char) → List Char
  | _, [] => []
  | first, g :: gs => (if first then g else ' ' :: g) ++ joinSp false gs

/-- Modelled from the spec: "re-groups the cleaned digits into
space-separated chunks of D characters" — splitting a list into `count`
chunks of `width` characters each. -/
def chunksN (width : Nat) : Nat → List Char → List (List Char)
  | 0, _ => []
  | n + 1, l => l.take width :: chunksN width n (l.drop width)

/-- Modelled from the spec: the value of a digit string in radix `R`,
most significant digit first ("standard positional radix notation");
digit values via `char::to_digit(16)`, which agrees on binary digits. -/
def digitStringVal (R : Nat) (l : List Char) : Nat :=
  l.foldl (fun a c => a * R + (toDigit16 c).getD 0) 0

instance exceptDecEq {ε α : Type} [DecidableEq ε] [DecidableEq α] :
    DecidableEq (Except ε α)
  | .ok x, .ok y =>
    match decEq x y with
    | isTrue h => isTrue (h ▸ rfl)
    | isFalse h => isFalse fun hc => h (Except.ok.inj hc)
  | .error x, .error y =>
    match decEq x y with
    | isTrue h => isTrue (h ▸ rfl)
    | isFalse h => isFalse fun hc => h (Except.error.inj hc)
  | .ok _, .error _ => isFalse fun hc => Except.noConfusion hc
  | .error _, .ok _ => isFalse fun hc => Except.noConfusion hc

/-! ### UTF-8 lemmas -/

theorem utf8EncodeNat_length_pos (v : Nat) : 1 ≤ (utf8EncodeNat v).length := by
  unfold utf8EncodeNat
  split <;> simp_all
  split <;> simp_all
  split <;> simp_all

theorem utf8EncodeNat_lt_256 (v : Nat) (hv : v < 0x110000) :
    ∀ b ∈ utf8EncodeNat v, b < 256 := by
  intro b hb
  unfold utf8EncodeNat at hb
  split at hb
  · simp at hb; omega
  · split at hb
    · simp at hb; rcases hb with h | h <;> omega
    · split at hb
      · simp at hb; rcases hb with h | h | h <;> omega
      · simp at hb; rcases hb with h | h | h | h <;> omega

theorem utf8Bytes_lt_256 (text : List Char) : ∀ b ∈ utf8Bytes text, b < 256 := by
  induction text with
  | nil => intro b hb; simp [utf8Bytes] at hb
  | cons c cs ih =>
    intro b hb
    simp only [utf8Bytes, List.mem_append] at hb
    rcases hb with h | h
    · have hv : Nat.isValidChar c.toNat := c.valid
      rcases hv with h1 | ⟨h1, h2⟩ <;> exact utf8EncodeNat_lt_256 _ (by omega) _ h
    · exact ih b h

theorem utf8Bytes_eq_nil_iff (text : List Char) : utf8Bytes text = [] ↔ text = [] := by
  cases text with
  | nil => simp [utf8Bytes]
  | cons c cs =>
    simp only [utf8Bytes]
    constructor
    · intro h
      rcases List.append_eq_nil.mp h with ⟨h1, _⟩
      have h2 := utf8EncodeNat_length_pos c.toNat
      rw [h1] at h2
      simp at h2
    · intro h; cases h

theorem utf8DecodeOne_encodeNat (c : Char) (rest : List Nat) :
    utf8DecodeOne (utf8EncodeNat c.toNat ++ rest) = some (c.toNat, rest) := by
  have hv : Nat.isValidChar c.toNat := c.valid
  set v := c.toNat with hvdef
  have hlt : v < 0x110000 := by rcases hv with h | ⟨h1, h2⟩ <;> omega
  have hsur : v < 0xD800 ∨ 0xE000 ≤ v := by rcases hv with h | ⟨h1, h2⟩ <;> omega
  by_cases h80 : v < 0x80
  · rw [utf8EncodeNat, if_pos h80]
    show utf8DecodeOne (v :: rest) = some (v, rest)
    simp only [utf8DecodeOne]
    rw [if_pos h80]
  · by_cases h800 : v < 0x800
    · rw [utf8EncodeNat, if_neg h80, if_pos h800]
      show utf8DecodeOne ((0xC0 + v / 64) :: (0x80 + v % 64) :: rest) = some (v, rest)
      have hc1 : isUtf8Cont (0x80 + v % 64) = true := by
        simp only [isUtf8Cont, Bool.and_eq_true, decide_eq_true_eq]; omega
      simp only [utf8DecodeOne]
      rw [if_neg (by omega), if_neg (by omega), if_pos (by omega), if_pos hc1]
      congr 2
      omega
    · by_cases h10000 : v < 0x10000
      · rw [utf8EncodeNat, if_neg h80, if_neg h800, if_pos h10000]
        show utf8DecodeOne
            ((0xE0 + v / 4096) :: (0x80 + v / 64 % 64) :: (0x80 + v % 64) :: rest) =
          some (v, rest)
        have hc1 : (isUtf8Cont (0x80 + v / 64 % 64) && isUtf8Cont (0x80 + v % 64)) = true := by
          simp only [isUtf8Cont, Bool.and_eq_true, decide_eq_true_eq]
          omega
        simp only [utf8DecodeOne]
        rw [if_neg (by omega), if_neg (by omega), if_neg (by omega), if_pos (by omega),
          if_pos hc1]
        rw [if_neg (by omega), if_neg (by simp only [Bool.and_eq_true, decide_eq_true_eq]; omega)]
        congr 2
        omega
      · rw [utf8EncodeNat, if_neg h80, if_neg h800, if_neg h10000]
        show utf8DecodeOne
            ((0xF0 + v / 262144) :: (0x80 + v / 4096 % 64) :: (0x80 + v / 64 % 64) ::
              (0x80 + v % 64) :: rest) =
          some (v, rest)
        have hc1 : (isUtf8Cont (0x80 + v / 4096 % 64) && isUtf8Cont (0x80 + v / 64 % 64) &&
            isUtf8Cont (0x80 + v % 64)) = true := by
          simp only [isUtf8Cont, Bool.and_eq_true, decide_eq_true_eq]
          omega
        simp only [utf8DecodeOne]
        rw [if_neg (by omega), if_neg (by omega), if_neg (by omega), if_neg (by omega),
          if_pos (by omega), if_pos hc1]
        rw [if_neg (by omega), if_neg (by omega)]
        congr 2
        omega

theorem utf8DecodeAux_roundtrip (text : List Char) :
    ∀ fuel, (utf8Bytes text).length ≤ fuel →
      utf8DecodeAux fuel (utf8Bytes text) = some text := by
  induction text with
  | nil => intro fuel _; cases fuel <;> rfl
  | cons c cs ih =>
    intro fuel hfuel
    have hlen1 := utf8EncodeNat_length_pos c.toNat
    have hbytes : utf8Bytes (c :: cs) = utf8EncodeNat c.toNat ++ utf8Bytes cs := rfl
    rw [hbytes] at hfuel ⊢
    simp only [List.length_append] at hfuel
    cases henc : utf8EncodeNat c.toNat with
    | nil => rw [henc] at hlen1; simp at hlen1
    | cons b bs =>
      cases fuel with
      | zero =>
        have hb : 1 ≤ (b :: bs).length := by simp
        omega
      | succ f =>
        show utf8DecodeAux (f + 1) (b :: (bs ++ utf8Bytes cs)) = some (c :: cs)
        have hdec : utf8DecodeOne (b :: (bs ++ utf8Bytes cs)) =
            some (c.toNat, utf8Bytes cs) := by
          have h := utf8DecodeOne_encodeNat c (utf8Bytes cs)
          rw [henc] at h
          simpa using h
        have hrec : utf8DecodeAux f (utf8Bytes cs) = some cs := by
          apply ih
          have hb : 1 ≤ (b :: bs).length := by simp
          omega
        simp only [utf8DecodeAux, hdec, hrec, Char.ofNat_toNat]

theorem fromUtf8_utf8Bytes (text : List Char) :
    fromUtf8 (utf8Bytes text) = some text :=
  utf8DecodeAux_roundtrip text _ le_rfl

/-! ### Lemmas about the joined-group output shape -/

theorem joinSp_false_cons (g : List Char) (gs : List (List Char)) :
    joinSp false (g :: gs) = ' ' :: joinSp true (g :: gs) := by
  simp [joinSp]

theorem joinSp_eq_intercalate : ∀ gs, joinSp true gs = List.intercalate [' '] gs := by
  intro gs
  cases gs with
  | nil => rfl
  | cons g gs =>
    induction gs generalizing g with
    | nil => simp [joinSp, List.intercalate]
    | cons g2 gs ih =>
      have h2 : joinSp true (g :: g2 :: gs) = g ++ ' ' :: joinSp true (g2 :: gs) := by
        simp [joinSp]
      rw [h2, ih g2]
      simp [List.intercalate, List.intersperse]

theorem joinSp_mem : ∀ (gs : List (List Char)) (first : Bool) (c : Char),
    c ∈ joinSp first gs → c = ' ' ∨ ∃ g, g ∈ gs ∧ c ∈ g := by
  intro gs
  induction gs with
  | nil => intro first c hc; simp [joinSp] at hc
  | cons g gs ih =>
    intro first c hc
    simp only [joinSp, List.mem_append] at hc
    rcases hc with hc | hc
    · cases first with
      | true => exact Or.inr ⟨g, by simp, by simpa using hc⟩
      | false =>
        simp only [if_neg Bool.false_ne_true, List.mem_cons] at hc
        rcases hc with hc | hc
        · exact Or.inl hc
        · exact Or.inr ⟨g, by simp, hc⟩
    · rcases ih false c hc with h | ⟨g', hg', hcg'⟩
      · exact Or.inl h
      · exact Or.inr ⟨g', by simp [hg'], hcg'⟩

theorem joinSp_filter (p : Char → Bool) (hsp : p ' ' = false) :
    ∀ (gs : List (List Char)) (first : Bool), (∀ g ∈ gs, ∀ c ∈ g, p c = true) →
      (joinSp first gs).filter p = gs.flatten := by
  intro gs
  induction gs with
  | nil => intro first _; rfl
  | cons g gs ih =>
    intro first hall
    have hg : g.filter p = g :=
      List.filter_eq_self.mpr fun c hc => hall g (by simp) c hc
    have hrest := ih false fun g' hg' => hall g' (by simp [hg'])
    simp only [joinSp, List.filter_append, List.flatten_cons, hrest]
    cases first with
    | true => simp [hg]
    | false => simp [List.filter_cons, hsp, hg]

theorem joinSp_length : ∀ (gs : List (List Char)) (first : Bool),
    (joinSp first gs).length =
      (gs.map List.length).sum + gs.length - (if first then 1 else 0) := by
  intro gs
  induction gs with
  | nil => intro first; cases first <;> rfl
  | cons g gs ih =>
    intro first
    have hrest := ih false
    cases first <;>
      simp only [joinSp, List.length_append, hrest, List.map_cons, List.sum_cons,
        List.length_cons] <;> simp <;> omega

theorem sum_map_length_const (w : Nat) :
    ∀ (gs : List (List Char)), (∀ g ∈ gs, g.length = w) →
      (gs.map List.length).sum = w * gs.length := by
  intro gs
  induction gs with
  | nil => intro _; simp
  | cons g gs ih =>
    intro h
    simp only [List.map_cons, List.sum_cons, List.length_cons,
      h g (by simp), ih fun g' hg' => h g' (by simp [hg'])]
    ring

/-! ### Hex table and pair lemmas -/

theorem hexTable_lookup : ∀ b, b < 256 →
    hex.HEX_CHARS_UPPER[b >>> 4]? = some (hexUpperDigit (b / 16)) ∧
    hex.HEX_CHARS_UPPER[b &&& 0xF]? = some (hexUpperDigit (b % 16)) := by decide

theorem hexDigit_facts : ∀ d, d < 16 →
    isAsciiHexdigit (hexUpperDigit d) = true ∧
    rustIsWhitespace (hexUpperDigit d) = false ∧
    toDigit16 (hexUpperDigit d) = some d := by decide

theorem hexPair_or_val : ∀ b, b < 256 → (b / 16) <<< 4 ||| b % 16 = b := by decide

theorem encodeLoop_eq (bs : List Nat) (h : ∀ b ∈ bs, b < 256) :
    ∀ first, hex.encodeLoop first bs = some (joinSp first (bs.map hexPair)) := by
  induction bs with
  | nil => intro first; rfl
  | cons b bs ih =>
    intro first
    have hb := h b (by simp)
    have hrest : ∀ x ∈ bs, x < 256 := fun x hx => h x (by simp [hx])
    obtain ⟨h1, h2⟩ := hexTable_lookup b hb
    simp only [hex.encodeLoop, h1, h2, ih hrest false, List.map_cons, joinSp]
    cases first <;> simp [hexPair]

theorem pairsLoop_map_hexPair (bs : List Nat) (h : ∀ b ∈ bs, b < 256) :
    hex.pairsLoop ((bs.map hexPair).flatten) = .ok bs := by
  induction bs with
  | nil => rfl
  | cons b bs ih =>
    have hb := h b (by simp)
    have hrest : ∀ x ∈ bs, x < 256 := fun x hx => h x (by simp [hx])
    have hhi := (hexDigit_facts (b / 16) (by omega)).2.2
    have hlo := (hexDigit_facts (b % 16) (by omega)).2.2
    show hex.pairsLoop (hexUpperDigit (b / 16) :: hexUpperDigit (b % 16) ::
      (bs.map hexPair).flatten) = _
    simp only [hex.pairsLoop, hhi, hlo, ih hrest, hexPair_or_val b hb]

theorem hexPair_mem_isHexdigit {b : Nat} (hb : b < 256) :
    ∀ c ∈ hexPair b, isAsciiHexdigit c = true := by
  intro c hc
  simp only [hexPair, List.mem_cons, List.not_mem_nil, or_false] at hc
  rcases hc with rfl | rfl
  · exact (hexDigit_facts _ (by omega)).1
  · exact (hexDigit_facts _ (by omega)).1

theorem hex_decode_encode (text : List Char) :
    ∃ E, hex.encode text = some E ∧ hex.decode E = .ok text := by
  have hlt : ∀ b ∈ utf8Bytes text, b < 256 := utf8Bytes_lt_256 text
  refine ⟨joinSp true ((utf8Bytes text).map hexPair), encodeLoop_eq _ hlt true, ?_⟩
  have hgs : ∀ g ∈ (utf8Bytes text).map hexPair, ∀ c ∈ g, isAsciiHexdigit c = true := by
    intro g hg c hcg
    rcases List.mem_map.mp hg with ⟨b, hb, rfl⟩
    exact hexPair_mem_isHexdigit (hlt b hb) c hcg
  have hval : ((joinSp true ((utf8Bytes text).map hexPair)).all
      fun c => isAsciiHexdigit c || rustIsWhitespace c) = true := by
    rw [List.all_eq_true]
    intro c hc
    rcases joinSp_mem _ _ _ hc with rfl | ⟨g, hg, hcg⟩
    · have : rustIsWhitespace ' ' = true := by decide
      simp [this]
    · simp [hgs g hg c hcg]
  have hfil : (joinSp true ((utf8Bytes text).map hexPair)).filter isAsciiHexdigit =
      ((utf8Bytes text).map hexPair).flatten :=
    joinSp_filter _ (by decide) _ _ hgs
  have hflen : (((utf8Bytes text).map hexPair).flatten).length = 2 * (utf8Bytes text).length := by
    rw [List.length_flatten]
    rw [sum_map_length_const 2 _ ?_, List.length_map]
    intro g hg
    rcases List.mem_map.mp hg with ⟨b, _, rfl⟩
    rfl
  have hploop := pairsLoop_map_hexPair _ hlt
  have hutf := fromUtf8_utf8Bytes text
  simp only [hex.decode, hval, Bool.not_true, if_false, hfil, hflen, hploop, hutf]
  simp [Nat.mul_mod_right]

/-! ### Lemmas about the strict-validation scanning loop -/

theorem strictLoop_all (digit : Char → Bool) :
    ∀ (l : List Char) (k : Nat),
      (∀ c ∈ l, digit c = true ∨ rustIsWhitespace c = true) →
      strictLoop digit l k = (true, k + l.countP digit) := by
  intro l
  induction l with
  | nil => intro k _; simp [strictLoop]
  | cons c cs ih =>
    intro k h
    have hrest : ∀ x ∈ cs, digit x = true ∨ rustIsWhitespace x = true :=
      fun x hx => h x (by simp [hx])
    by_cases hd : digit c = true
    · rw [List.countP_cons_of_pos _ _ hd]
      simp only [strictLoop, if_pos hd, ih (k + 1) hrest]
      congr 1
      omega
    · rcases h c (by simp) with h1 | hw
      · exact absurd h1 hd
      · rw [List.countP_cons_of_neg _ _ hd]
        simp only [strictLoop, if_neg hd, if_pos hw, ih k hrest]

theorem strictLoop_fst_true (digit : Char → Bool) :
    ∀ (l : List Char) (k : Nat), (strictLoop digit l k).1 = true →
      ∀ c ∈ l, digit c = true ∨ rustIsWhitespace c = true := by
  intro l
  induction l with
  | nil => intro k _ c hc; simp at hc
  | cons c cs ih =>
    intro k hl x hx
    by_cases hd : digit c = true
    · rw [List.mem_cons] at hx
      rcases hx with rfl | hx
      · exact Or.inl hd
      · exact ih (k + 1) (by simpa [strictLoop, if_pos hd] using hl) x hx
    · by_cases hw : rustIsWhitespace c = true
      · rw [List.mem_cons] at hx
        rcases hx with rfl | hx
        · exact Or.inr hw
        · exact ih k (by simpa [strictLoop, hd, hw] using hl) x hx
      · rw [strictLoop, if_neg (by simp [hd]), if_neg (by simp [hw])] at hl
        simp at hl

/-! ### Lemmas about the formatting loops -/

theorem takeN_eq : ∀ (n : Nat) (l : List Char), n ≤ l.length →
    takeN n l = some (l.take n, l.drop n) := by
  intro n
  induction n with
  | zero => intro l _; rfl
  | succ n ih =>
    intro l hl
    cases l with
    | nil => simp at hl
    | cons c cs =>
      simp only [List.length_cons, Nat.succ_le_succ_iff] at hl
      simp [takeN, ih cs hl]

theorem fmtLoop_eq (width : Nat) :
    ∀ (count : Nat) (l : List Char) (first : Bool), count * width ≤ l.length →
      fmtLoop width count first l = some (joinSp first (chunksN width count l)) := by
  intro count
  induction count with
  | zero => intro l first _; rfl
  | succ count ih =>
    intro l first hl
    have hw : width ≤ l.length := by
      have : width ≤ (count + 1) * width := by
        calc width = 1 * width := (one_mul width).symm
        _ ≤ (count + 1) * width := Nat.mul_le_mul_right width (by omega)
      omega
    have hrest : count * width ≤ (l.drop width).length := by
      rw [List.length_drop]
      have : (count + 1) * width = count * width + width := by ring
      omega
    simp only [fmtLoop, takeN_eq width l hw, ih (l.drop width) false hrest, chunksN, joinSp]

theorem chunksN_flatten (width : Nat) :
    ∀ (count : Nat) (l : List Char), l.length = count * width →
      (chunksN width count l).flatten = l := by
  intro count
  induction count with
  | zero =>
    intro l hl
    simp at hl
    simp [chunksN, hl]
  | succ count ih =>
    intro l hl
    have hw : width ≤ l.length := by
      have : (count + 1) * width = count * width + width := by ring
      omega
    have hrest : (l.drop width).length = count * width := by
      rw [List.length_drop]
      have : (count + 1) * width = count * width + width := by ring
      omega
    simp [chunksN, ih (l.drop width) hrest]

theorem chunksN_mem_length (width : Nat) :
    ∀ (count : Nat) (l : List Char), count * width ≤ l.length →
      ∀ g ∈ chunksN width count l, g.length = width := by
  intro count
  induction count with
  | zero => intro l _ g hg; simp [chunksN] at hg
  | succ count ih =>
    intro l hl g hg
    have hw : width ≤ l.length := by
      have : width ≤ (count + 1) * width := by
        calc width = 1 * width := (one_mul width).symm
        _ ≤ (count + 1) * width := Nat.mul_le_mul_right width (by omega)
      omega
    have hrest : count * width ≤ (l.drop width).length := by
      rw [List.length_drop]
      have : (count + 1) * width = count * width + width := by ring
      omega
    simp only [chunksN, List.mem_cons] at hg
    rcases hg with rfl | hg
    · exact List.length_take_of_le hw
    · exact ih (l.drop width) hrest g hg

theorem chunksN_count (width : Nat) :
    ∀ (count : Nat) (l : List Char), (chunksN width count l).length = count := by
  intro count
  induction count with
  | zero => intro l; rfl
  | succ count ih => intro l; simp [chunksN, ih]

/-! ### Lemmas about the binary decoding loops -/

theorem binByteLoop_digits :
    ∀ (k : Nat) (cs : List Char) (acc : Nat), (∀ c ∈ cs, isBinDigit c = true) →
      ∃ b, bin.binByteLoop k acc cs = some (b, cs.drop k) := by
  intro k
  induction k with
  | zero => intro cs acc _; exact ⟨acc, rfl⟩
  | succ k ih =>
    intro cs acc h
    cases cs with
    | nil => exact ⟨acc, rfl⟩
    | cons c cs' =>
      have hrest : ∀ x ∈ cs', isBinDigit x = true := fun x hx => h x (by simp [hx])
      have hc := h c (by simp)
      rw [isBinDigit] at hc
      simp only [Bool.or_eq_true, beq_iff_eq] at hc
      rcases hc with rfl | rfl
      · obtain ⟨b, hb⟩ := ih cs' acc hrest
        exact ⟨b, by simpa [bin.binByteLoop] using hb⟩
      · obtain ⟨b, hb⟩ := ih cs' (acc ||| 1 <<< k) hrest
        exact ⟨b, by simpa [bin.binByteLoop] using hb⟩

theorem binBytesAux_digits :
    ∀ (fuel : Nat) (cs : List Char), (∀ c ∈ cs, isBinDigit c = true) →
      cs.length ≤ fuel → ∃ bs, bin.binBytesAux fuel cs = some bs := by
  intro fuel
  induction fuel with
  | zero =>
    intro cs h hl
    cases cs with
    | nil => exact ⟨[], rfl⟩
    | cons c cs' => simp at hl
  | succ fuel ih =>
    intro cs h hl
    cases cs with
    | nil => exact ⟨[], rfl⟩
    | cons c rest =>
      have hrest : ∀ x ∈ rest, isBinDigit x = true := fun x hx => h x (by simp [hx])
      obtain ⟨b, hb⟩ := binByteLoop_digits 8 rest 0 hrest
      have hdrop : ∀ x ∈ rest.drop 8, isBinDigit x = true :=
        fun x hx => hrest x (List.mem_of_mem_drop hx)
      have hdlen : (rest.drop 8).length ≤ fuel := by
        rw [List.length_drop]
        simp only [List.length_cons] at hl
        omega
      obtain ⟨bs, hbs⟩ := ih (rest.drop 8) hdrop hdlen
      exact ⟨b :: bs, by simp [bin.binBytesAux, hb, hbs]⟩

theorem binBytes_digits (cs : List Char) (h : ∀ c ∈ cs, isBinDigit c = true) :
    ∃ bs, bin.binBytes cs = some bs :=
  binBytesAux_digits cs.length cs h le_rfl

/-- C1: Round-trip.  The hex codec round-trips: for every string `text`,
`encode` succeeds and `decode (encode text) = Ok text`.  The binary codec
does not: `str_to_bin "H"` is `"01001000"`, but `bin_to_str` then returns
an `InvalidSyntax` (invalid UTF-8) error instead of `Ok "H"`, because its
decoding loop consumes and discards one cleaned digit per outer iteration. -/
theorem C1_roundtrip :
    (∀ text : List Char, ∃ E, hex.encode text = some E ∧ hex.decode E = .ok text) ∧
    bin.str_to_bin ['H'] = ['0', '1', '0', '0', '1', '0', '0', '0'] ∧
    bin.bin_to_str (bin.str_to_bin ['H']) =
      some (.error (.invalidStx "Invalid UTF-8")) :=
  ⟨hex_decode_encode, by decide, by decide⟩

theorem strict_implies_lenient_generic (digit : Char → Bool) (s : List Char)
    (h1 : (strictLoop digit s 0).1 = true) (h2 : 0 < (strictLoop digit s 0).2) :
    (!s.isEmpty && s.all fun c => rustIsWhitespace c || digit c) = true := by
  have hall := strictLoop_fst_true digit s 0 h1
  have heq := strictLoop_all digit s 0 hall
  rw [heq] at h2
  simp only [Nat.zero_add] at h2
  rw [Bool.and_eq_true]
  constructor
  · cases s with
    | nil => simp at h2
    | cons c cs => rfl
  · rw [List.all_eq_true]
    intro c hc
    rcases hall c hc with h | h <;> simp [h]

/-- C8: strict validity implies lenient validity, for both codecs: whenever
`is_valid_bin_strict` (resp. hex `check_strict`) accepts a string, so does
`is_valid_bin` (resp. hex `check`). -/
theorem C8_strict_implies_lenient (s : List Char) :
    (bin.is_valid_bin_strict s = true → bin.is_valid_bin s = true) ∧
    (hex.check_strict s = true → hex.check s = true) := by
  constructor
  · intro h
    simp only [bin.is_valid_bin_strict, Bool.and_eq_true, beq_iff_eq,
      decide_eq_true_eq] at h
    exact strict_implies_lenient_generic isBinDigit s h.1.1 h.1.2
  · intro h
    simp only [hex.check_strict, Bool.and_eq_true, beq_iff_eq,
      decide_eq_true_eq] at h
    exact strict_implies_lenient_generic isAsciiHexdigit s h.1.1 h.1.2

theorem C8_witness :
    bin.is_valid_bin ['0', '1', '0', '0', '1', '0', '0', '0'] = true ∧
    hex.check ['4', '8'] = true :=
  ⟨(C8_strict_implies_lenient _).1 (by decide), (C8_strict_implies_lenient _).2 (by decide)⟩

/-! ### Characterization of the formatting operations -/

theorem fmt_bin_eq (s : List Char) :
    bin.fmt_bin s =
      if (bin.clean_bin s).length = 0 then
        some (.error (.invalidStx "Empty binary string"))
      else if (bin.clean_bin s).length % 8 ≠ 0 then
        some (.error (.invalidStx "Binary string length must be multiple of 8"))
      else
        some (.ok (joinSp true
          (chunksN 8 ((bin.clean_bin s).length / 8) (bin.clean_bin s)))) := by
  by_cases h0 : (bin.clean_bin s).length = 0
  · simp [bin.fmt_bin, h0]
  · by_cases h8 : (bin.clean_bin s).length % 8 ≠ 0
    · simp [bin.fmt_bin, h0, h8]
    · have hle : (bin.clean_bin s).length / 8 * 8 ≤ (bin.clean_bin s).length :=
        Nat.div_mul_le_self _ 8
      simp [bin.fmt_bin, h0, h8, fmtLoop_eq 8 _ _ true hle]

theorem format_hex_eq (s : List Char) :
    hex.format s =
      if (hex.clean s).length = 0 then
        some (.error (.invalidStx "Empty hex string"))
      else if (hex.clean s).length % 2 ≠ 0 then
        some (.error (.invalidStx "Hexadecimal string length must be a multiple of 2"))
      else
        some (.ok (joinSp true
          (chunksN 2 ((hex.clean s).length / 2) (hex.clean s)))) := by
  by_cases h0 : (hex.clean s).length = 0
  · simp [hex.format, h0]
  · by_cases h2 : (hex.clean s).length % 2 ≠ 0
    · simp [hex.format, h0, h2]
    · have hle : (hex.clean s).length / 2 * 2 ≤ (hex.clean s).length :=
        Nat.div_mul_le_self _ 2
      simp [hex.format, h0, h2, fmtLoop_eq 2 _ _ true hle]

/-- C7: no modelled panic site is reachable: `bin_to_str` (its
`unreachable!()`), `fmt_bin` and hex `format` (their `unwrap`s) and hex
`encode` (its table indexing) return a proper value on every input. -/
theorem C7_no_panics (s : List Char) :
    bin.bin_to_str s ≠ none ∧ bin.fmt_bin s ≠ none ∧
    hex.format s ≠ none ∧ hex.encode s ≠ none := by
  refine ⟨?_, ?_, ?_, ?_⟩
  · by_cases hv : (s.all fun c => isBinDigit c || rustIsWhitespace c) = true
    · by_cases h8 : (s.filter isBinDigit).length % 8 ≠ 0
      · simp [bin.bin_to_str, hv, h8]
      · obtain ⟨bs, hbs⟩ := binBytes_digits (s.filter isBinDigit)
          fun c hc => List.of_mem_filter hc
        cases hf : fromUtf8 bs with
        | none => simp [bin.bin_to_str, hv, h8, hbs, hf]
        | some t => simp [bin.bin_to_str, hv, h8, hbs, hf]
    · rw [Bool.not_eq_true] at hv
      simp [bin.bin_to_str, hv]
  · rw [fmt_bin_eq]
    by_cases h0 : (bin.clean_bin s).length = 0
    · simp [h0]
    · by_cases h8 : (bin.clean_bin s).length % 8 ≠ 0
      · simp [h0, h8]
      · simp [h0, h8]
  · rw [format_hex_eq]
    by_cases h0 : (hex.clean s).length = 0
    · simp [h0]
    · by_cases h2 : (hex.clean s).length % 2 ≠ 0
      · simp [h0, h2]
      · simp [h0, h2]
  · rw [hex.encode, encodeLoop_eq _ (utf8Bytes_lt_256 s) true]
    simp

theorem strictLoop_joinSp_val (digit : Char → Bool) (hspd : digit ' ' = false)
    (gs : List (List Char)) (hgs : ∀ g ∈ gs, ∀ c ∈ g, digit c = true) :
    strictLoop digit (joinSp true gs) 0 = (true, gs.flatten.length) := by
  have hall : ∀ c ∈ joinSp true gs, digit c = true ∨ rustIsWhitespace c = true := by
    intro c hc
    rcases joinSp_mem _ _ _ hc with rfl | ⟨g, hg, hcg⟩
    · right; decide
    · left; exact hgs g hg c hcg
  rw [strictLoop_all digit _ 0 hall, Nat.zero_add, List.countP_eq_length_filter,
    joinSp_filter digit hspd gs true hgs]

theorem check_strict_joinSp (gs : List (List Char))
    (hgs : ∀ g ∈ gs, ∀ c ∈ g, isAsciiHexdigit c = true) :
    hex.check_strict (joinSp true gs) =
      (decide (0 < gs.flatten.length) && (gs.flatten.length % 2 == 0)) := by
  simp only [hex.check_strict, strictLoop_joinSp_val isAsciiHexdigit (by decide) gs hgs,
    Bool.true_and]

theorem is_valid_bin_strict_joinSp (gs : List (List Char))
    (hgs : ∀ g ∈ gs, ∀ c ∈ g, isBinDigit c = true) :
    bin.is_valid_bin_strict (joinSp true gs) =
      (decide (0 < gs.flatten.length) && (gs.flatten.length % 8 == 0)) := by
  simp only [bin.is_valid_bin_strict, strictLoop_joinSp_val isBinDigit (by decide) gs hgs,
    Bool.true_and]

theorem chunks_clean_digits (p : Char → Bool) (w count : Nat) (cl : List Char)
    (hcl : ∀ c ∈ cl, p c = true)
    (hflat : (chunksN w count cl).flatten = cl) :
    ∀ g ∈ chunksN w count cl, ∀ c ∈ g, p c = true := by
  intro g hg c hcg
  have hm : c ∈ (chunksN w count cl).flatten := List.mem_flatten.mpr ⟨g, hg, hcg⟩
  rw [hflat] at hm
  exact hcl c hm

/-- C6: `format` (hex) and `fmt_bin` (binary) fail with `InvalidSyntax`
exactly when the cleaned input is empty or its length is not a multiple of
D; otherwise they succeed with the cleaned digits re-grouped into
space-separated chunks of D characters, and that output passes
`check_strict` / `is_valid_bin_strict`. -/
theorem C6_format_spec (s : List Char) :
    (if (hex.clean s).length = 0 ∨ (hex.clean s).length % 2 ≠ 0 then
      ∃ e, hex.format s = some (.error e)
     else
      hex.format s = some (.ok (List.intercalate [' ']
        (chunksN 2 ((hex.clean s).length / 2) (hex.clean s)))) ∧
      hex.check_strict (List.intercalate [' ']
        (chunksN 2 ((hex.clean s).length / 2) (hex.clean s))) = true) ∧
    (if (bin.clean_bin s).length = 0 ∨ (bin.clean_bin s).length % 8 ≠ 0 then
      ∃ e, bin.fmt_bin s = some (.error e)
     else
      bin.fmt_bin s = some (.ok (List.intercalate [' ']
        (chunksN 8 ((bin.clean_bin s).length / 8) (bin.clean_bin s)))) ∧
      bin.is_valid_bin_strict (List.intercalate [' ']
        (chunksN 8 ((bin.clean_bin s).length / 8) (bin.clean_bin s))) = true) := by
  constructor
  · by_cases h0 : (hex.clean s).length = 0
    · rw [if_pos (Or.inl h0), format_hex_eq, if_pos h0]
      exact ⟨_, rfl⟩
    · by_cases h2 : (hex.clean s).length % 2 ≠ 0
      · rw [if_pos (Or.inr h2), format_hex_eq, if_neg h0, if_pos h2]
        exact ⟨_, rfl⟩
      · rw [if_neg (by tauto), format_hex_eq, if_neg h0, if_neg h2,
          ← joinSp_eq_intercalate]
        have hflat : (chunksN 2 ((hex.clean s).length / 2) (hex.clean s)).flatten =
            hex.clean s :=
          chunksN_flatten 2 _ _ (by omega)
        have hgs := chunks_clean_digits isAsciiHexdigit 2 ((hex.clean s).length / 2)
          (hex.clean s) (fun c hc => List.of_mem_filter hc) hflat
        refine ⟨rfl, ?_⟩
        rw [check_strict_joinSp _ hgs, hflat]
        simp only [Bool.and_eq_true, decide_eq_true_eq, beq_iff_eq]
        omega
  · by_cases h0 : (bin.clean_bin s).length = 0
    · rw [if_pos (Or.inl h0), fmt_bin_eq, if_pos h0]
      exact ⟨_, rfl⟩
    · by_cases h8 : (bin.clean_bin s).length % 8 ≠ 0
      · rw [if_pos (Or.inr h8), fmt_bin_eq, if_neg h0, if_pos h8]
        exact ⟨_, rfl⟩
      · rw [if_neg (by tauto), fmt_bin_eq, if_neg h0, if_neg h8,
          ← joinSp_eq_intercalate]
        have hflat : (chunksN 8 ((bin.clean_bin s).length / 8) (bin.clean_bin s)).flatten =
            bin.clean_bin s :=
          chunksN_flatten 8 _ _ (by omega)
        have hgs := chunks_clean_digits isBinDigit 8 ((bin.clean_bin s).length / 8)
          (bin.clean_bin s) (fun c hc => List.of_mem_filter hc) hflat
        refine ⟨rfl, ?_⟩
        rw [is_valid_bin_strict_joinSp _ hgs, hflat]
        simp only [Bool.and_eq_true, decide_eq_true_eq, beq_iff_eq]
        omega

/-- C9: `format` is idempotent on its successful outputs, for both codecs:
if formatting `s` yields `Ok t`, then formatting `t` yields `Ok t` again. -/
theorem C9_format_idempotent :
    (∀ s t, hex.format s = some (.ok t) → hex.format t = some (.ok t)) ∧
    (∀ s t, bin.fmt_bin s = some (.ok t) → bin.fmt_bin t = some (.ok t)) := by
  constructor
  · intro s t h
    rw [format_hex_eq] at h
    by_cases h0 : (hex.clean s).length = 0
    · rw [if_pos h0] at h; simp at h
    · by_cases h2 : (hex.clean s).length % 2 ≠ 0
      · rw [if_neg h0, if_pos h2] at h; simp at h
      · rw [if_neg h0, if_neg h2] at h
        simp only [Option.some.injEq, Except.ok.injEq] at h
        subst h
        have hflat : (chunksN 2 ((hex.clean s).length / 2) (hex.clean s)).flatten =
            hex.clean s :=
          chunksN_flatten 2 _ _ (by omega)
        have hgs := chunks_clean_digits isAsciiHexdigit 2 ((hex.clean s).length / 2)
          (hex.clean s) (fun c hc => List.of_mem_filter hc) hflat
        have hclean : hex.clean (joinSp true
            (chunksN 2 ((hex.clean s).length / 2) (hex.clean s))) = hex.clean s := by
          show (joinSp true _).filter isAsciiHexdigit = _
          rw [joinSp_filter isAsciiHexdigit (by decide) _ true hgs, hflat]
        rw [format_hex_eq, hclean, if_neg h0, if_neg h2]
  · intro s t h
    rw [fmt_bin_eq] at h
    by_cases h0 : (bin.clean_bin s).length = 0
    · rw [if_pos h0] at h; simp at h
    · by_cases h8 : (bin.clean_bin s).length % 8 ≠ 0
      · rw [if_neg h0, if_pos h8] at h; simp at h
      · rw [if_neg h0, if_neg h8] at h
        simp only [Option.some.injEq, Except.ok.injEq] at h
        subst h
        have hflat : (chunksN 8 ((bin.clean_bin s).length / 8)
            (bin.clean_bin s)).flatten = bin.clean_bin s :=
          chunksN_flatten 8 _ _ (by omega)
        have hgs := chunks_clean_digits isBinDigit 8 ((bin.clean_bin s).length / 8)
          (bin.clean_bin s) (fun c hc => List.of_mem_filter hc) hflat
        have hclean : bin.clean_bin (joinSp true
            (chunksN 8 ((bin.clean_bin s).length / 8) (bin.clean_bin s))) =
            bin.clean_bin s := by
          show (joinSp true _).filter isBinDigit = _
          rw [joinSp_filter isBinDigit (by decide) _ true hgs, hflat]
        rw [fmt_bin_eq, hclean, if_neg h0, if_neg h8]

theorem C9_witness :
    hex.format ['4', '8', ' ', '6', '5'] = some (.ok ['4', '8', ' ', '6', '5']) ∧
    bin.fmt_bin ['0', '1', '0', '0', '1', '0', '0', '0'] =
      some (.ok ['0', '1', '0', '0', '1', '0', '0', '0']) :=
  ⟨C9_format_idempotent.1 ['4', '8', '6', '5'] _ (by decide),
   C9_format_idempotent.2 ['0', '1', '0', '0', '1', '0', '0', '0'] _ (by decide)⟩

theorem byteBits_facts : ∀ b, b < 256 →
    (bin.byteBits b).length = 8 ∧ (∀ c ∈ bin.byteBits b, isBinDigit c = true) ∧
    digitStringVal 2 (bin.byteBits b) = b := by decide

theorem hexPair_facts : ∀ b, b < 256 →
    (hexPair b).length = 2 ∧ (∀ c ∈ hexPair b, c ∈ hex.HEX_CHARS_UPPER) ∧
    digitStringVal 16 (hexPair b) = b := by decide

theorem strToBinLoop_eq : ∀ (bs : List Nat) (first : Bool),
    bin.strToBinLoop first bs = joinSp first (bs.map bin.byteBits) := by
  intro bs
  induction bs with
  | nil => intro first; rfl
  | cons b bs ih => intro first; simp [bin.strToBinLoop, joinSp, ih false]

theorem flatten_map_length (w : Nat) (f : Nat → List Char) (bs : List Nat)
    (hf : ∀ b ∈ bs, (f b).length = w) : ((bs.map f).flatten).length = w * bs.length := by
  rw [List.length_flatten]
  rw [sum_map_length_const w _ ?_, List.length_map]
  intro g hg
  rcases List.mem_map.mp hg with ⟨b, hb, rfl⟩
  exact hf b hb

/-- C10: the output of `encode` passes strict validation exactly when the
input text is non-empty; for empty text the output is the empty string,
which fails strict validation.  Both codecs. -/
theorem C10_encode_check_strict (text : List Char) :
    hex.encode text = some (joinSp true ((utf8Bytes text).map hexPair)) ∧
    hex.check_strict (joinSp true ((utf8Bytes text).map hexPair)) = !text.isEmpty ∧
    bin.is_valid_bin_strict (bin.str_to_bin text) = !text.isEmpty := by
  have hlt := utf8Bytes_lt_256 text
  refine ⟨encodeLoop_eq _ hlt true, ?_, ?_⟩
  · have hgs : ∀ g ∈ (utf8Bytes text).map hexPair, ∀ c ∈ g, isAsciiHexdigit c = true := by
      intro g hg c hcg
      rcases List.mem_map.mp hg with ⟨b, hb, rfl⟩
      exact hexPair_mem_isHexdigit (hlt b hb) c hcg
    rw [check_strict_joinSp _ hgs, flatten_map_length 2 hexPair _ fun b _ => rfl]
    cases text with
    | nil => simp [utf8Bytes]
    | cons c cs =>
      have hne : utf8Bytes (c :: cs) ≠ [] := by
        rw [Ne, utf8Bytes_eq_nil_iff]; simp
      have hpos : 0 < (utf8Bytes (c :: cs)).length := List.length_pos.mpr hne
      simp only [List.isEmpty_cons, Bool.not_false, Bool.and_eq_true,
        decide_eq_true_eq, beq_iff_eq]
      omega
  · rw [bin.str_to_bin, strToBinLoop_eq]
    have hgs : ∀ g ∈ (utf8Bytes text).map bin.byteBits, ∀ c ∈ g, isBinDigit c = true := by
      intro g hg c hcg
      rcases List.mem_map.mp hg with ⟨b, hb, rfl⟩
      exact (byteBits_facts b (hlt b hb)).2.1 c hcg
    rw [is_valid_bin_strict_joinSp _ hgs,
      flatten_map_length 8 bin.byteBits _ fun b hb => (byteBits_facts b (hlt b hb)).1]
    cases text with
    | nil => simp [utf8Bytes]
    | cons c cs =>
      have hne : utf8Bytes (c :: cs) ≠ [] := by
        rw [Ne, utf8Bytes_eq_nil_iff]; simp
      have hpos : 0 < (utf8Bytes (c :: cs)).length := List.length_pos.mpr hne
      simp only [List.isEmpty_cons, Bool.not_false, Bool.and_eq_true,
        decide_eq_true_eq, beq_iff_eq]
      omega

/-! ### Noise rejection and the empty input -/

theorem ws_not_hexdigit (c : Char) (h : rustIsWhitespace c = true) :
    ¬ isAsciiHexdigit c = true := by
  intro habs
  simp only [rustIsWhitespace, Bool.or_eq_true, Bool.and_eq_true, decide_eq_true_eq,
    beq_iff_eq] at h
  simp only [isAsciiHexdigit, Bool.or_eq_true, Bool.and_eq_true, decide_eq_true_eq] at habs
  omega

theorem ws_not_binDigit (c : Char) (h : rustIsWhitespace c = true) :
    ¬ isBinDigit c = true := by
  intro habs
  simp only [isBinDigit, Bool.or_eq_true, beq_iff_eq] at habs
  rcases habs with rfl | rfl <;> exact absurd h (by decide)

/-- C2 (amended): decode ignores whitespace separators but rejects any
other non-digit character with an `InvalidSyntax` error — it does not
strip noise.  With whitespace-only separators hex decode succeeds:
`decode "48 65 6C 6C 6F" = Ok "Hello"`. -/
theorem C2_noise_rejected :
    (∀ s : List Char, (s.all fun c => isAsciiHexdigit c || rustIsWhitespace c) = false →
      hex.decode s = .error (.invalidStx "Non-hex character detected")) ∧
    (∀ s : List Char, (s.all fun c => isBinDigit c || rustIsWhitespace c) = false →
      bin.bin_to_str s = some (.error (.invalidStx "Non-binary character detected"))) ∧
    hex.decode ['4', '8', ' ', '6', '5', ' ', '6', 'C', ' ', '6', 'C', ' ', '6', 'F'] =
      .ok ['H', 'e', 'l', 'l', 'o'] := by
  refine ⟨?_, ?_, by decide⟩
  · intro s h
    simp [hex.decode, h]
  · intro s h
    simp [bin.bin_to_str, h]

theorem C2_counterexample :
    bin.bin_to_str ['0', '1', '0', '0', ' ', '1', '0', '0', '0', ' ', '!', '@', '#'] =
      some (.error (.invalidStx "Non-binary character detected")) ∧
    hex.decode ['4', '8', 'z', '6', '5', '$', '6', 'C', '\n', '6', 'C', '_', '6', 'F'] =
      .error (.invalidStx "Non-hex character detected") := by decide

theorem C2_witness :
    hex.decode ['4', 'g'] = .error (.invalidStx "Non-hex character detected") ∧
    bin.bin_to_str ['2'] = some (.error (.invalidStx "Non-binary character detected")) :=
  ⟨C2_noise_rejected.1 _ (by decide), C2_noise_rejected.2.1 _ (by decide)⟩

/-- C3 (amended): decode of a whitespace-only string — in particular of
the empty string — succeeds with `Ok ""` for both codecs; the degenerate
empty case is not rejected. -/
theorem C3_decode_whitespace_ok (s : List Char) (h : s.all rustIsWhitespace = true) :
    hex.decode s = .ok [] ∧ bin.bin_to_str s = some (.ok []) := by
  rw [List.all_eq_true] at h
  have hvalh : (s.all fun c => isAsciiHexdigit c || rustIsWhitespace c) = true := by
    rw [List.all_eq_true]; intro c hc; simp [h c hc]
  have hvalb : (s.all fun c => isBinDigit c || rustIsWhitespace c) = true := by
    rw [List.all_eq_true]; intro c hc; simp [h c hc]
  have hfilh : s.filter isAsciiHexdigit = [] := by
    rw [List.filter_eq_nil_iff]
    intro c hc
    exact ws_not_hexdigit c (h c hc)
  have hfilb : s.filter isBinDigit = [] := by
    rw [List.filter_eq_nil_iff]
    intro c hc
    exact ws_not_binDigit c (h c hc)
  constructor
  · simp [hex.decode, hvalh, hfilh, hex.pairsLoop, fromUtf8, utf8DecodeAux]
  · simp [bin.bin_to_str, hvalb, hfilb, bin.binBytes, bin.binBytesAux, fromUtf8,
      utf8DecodeAux]

theorem C3_counterexample :
    hex.decode [] = .ok [] ∧ bin.bin_to_str [] = some (.ok []) := by decide

theorem C3_witness :
    hex.decode [' '] = .ok [] ∧ bin.bin_to_str [' '] = some (.ok []) :=
  C3_decode_whitespace_ok [' '] (by decide)

/-- C4 (amended): decode succeeds if and only if every input character is
a radix digit or whitespace, the cleaned length is a multiple of D, and
the assembled byte sequence is valid UTF-8.  (In particular: non-digit
noise makes it fail even when the cleaned length is aligned, and the empty
string succeeds.) -/
theorem C4_decode_ok_iff (s : List Char) :
    ((∃ t, hex.decode s = .ok t) ↔
      ((s.all fun c => isAsciiHexdigit c || rustIsWhitespace c) = true ∧
       (hex.clean s).length % 2 = 0 ∧
       ∃ bs, hex.pairsLoop (hex.clean s) = .ok bs ∧ (fromUtf8 bs).isSome = true)) ∧
    ((∃ t, bin.bin_to_str s = some (.ok t)) ↔
      ((s.all fun c => isBinDigit c || rustIsWhitespace c) = true ∧
       (bin.clean_bin s).length % 8 = 0 ∧
       ∃ bs, bin.binBytes (bin.clean_bin s) = some bs ∧ (fromUtf8 bs).isSome = true)) := by
  constructor
  · constructor
    · rintro ⟨t, ht⟩
      by_cases hv : (s.all fun c => isAsciiHexdigit c || rustIsWhitespace c) = true
      · by_cases h2 : (s.filter isAsciiHexdigit).length % 2 = 0
        · cases hploop : hex.pairsLoop (s.filter isAsciiHexdigit) with
          | error e => simp [hex.decode, hv, h2, hploop] at ht
          | ok bs =>
            cases hf : fromUtf8 bs with
            | none => simp [hex.decode, hv, h2, hploop, hf] at ht
            | some t' => exact ⟨hv, h2, bs, hploop, by rw [hf]; rfl⟩
        · simp [hex.decode, hv, h2] at ht
      · rw [Bool.not_eq_true] at hv
        simp [hex.decode, hv] at ht
    · rintro ⟨hv, h2, bs, hploop, hsome⟩
      obtain ⟨t, ht⟩ := Option.isSome_iff_exists.mp hsome
      refine ⟨t, ?_⟩
      have h2' : ¬ (s.filter isAsciiHexdigit).length % 2 ≠ 0 := fun hne => hne h2
      simp only [hex.clean] at hploop
      simp [hex.decode, hv, h2', hploop, ht]
  · constructor
    · rintro ⟨t, ht⟩
      by_cases hv : (s.all fun c => isBinDigit c || rustIsWhitespace c) = true
      · by_cases h8 : (s.filter isBinDigit).length % 8 = 0
        · cases hbytes : bin.binBytes (s.filter isBinDigit) with
          | none => simp [bin.bin_to_str, hv, h8, hbytes] at ht
          | some bs =>
            cases hf : fromUtf8 bs with
            | none => simp [bin.bin_to_str, hv, h8, hbytes, hf] at ht
            | some t' => exact ⟨hv, h8, bs, hbytes, by rw [hf]; rfl⟩
        · simp [bin.bin_to_str, hv, h8] at ht
      · rw [Bool.not_eq_true] at hv
        simp [bin.bin_to_str, hv] at ht
    · rintro ⟨hv, h8, bs, hbytes, hsome⟩
      obtain ⟨t, ht⟩ := Option.isSome_iff_exists.mp hsome
      refine ⟨t, ?_⟩
      have h8' : ¬ (s.filter isBinDigit).length % 8 ≠ 0 := fun hne => hne h8
      simp only [bin.clean_bin] at hbytes
      simp [bin.bin_to_str, hv, h8', hbytes, ht]

theorem C4_counterexample :
    (hex.clean ['F', 'F']).length = 2 ∧
    hex.decode ['F', 'F'] = .error (.invalidStx "Invalid UTF-8") := by decide

/-- C5: encode never fails; it maps each byte of the UTF-8 encoding to its
fixed-width radix representation (2 uppercase hex digits, resp. 8 binary
digits, zero-padded so that the group value equals the byte), joined with
a single space between byte-groups; the output length is `n*D + (n-1)`
for `n` input bytes and `0` when the input is empty. -/
theorem C5_encode_shape (text : List Char) :
    hex.encode text = some (List.intercalate [' '] ((utf8Bytes text).map hexPair)) ∧
    bin.str_to_bin text = List.intercalate [' '] ((utf8Bytes text).map bin.byteBits) ∧
    (∀ b ∈ utf8Bytes text,
      (hexPair b).length = 2 ∧ (∀ c ∈ hexPair b, c ∈ hex.HEX_CHARS_UPPER) ∧
      digitStringVal 16 (hexPair b) = b ∧
      (bin.byteBits b).length = 8 ∧ (∀ c ∈ bin.byteBits b, isBinDigit c = true) ∧
      digitStringVal 2 (bin.byteBits b) = b) ∧
    (List.intercalate [' '] ((utf8Bytes text).map hexPair)).length =
      (if (utf8Bytes text).length = 0 then 0
       else (utf8Bytes text).length * 2 + ((utf8Bytes text).length - 1)) ∧
    (bin.str_to_bin text).length =
      (if (utf8Bytes text).length = 0 then 0
       else (utf8Bytes text).length * 8 + ((utf8Bytes text).length - 1)) := by
  have hlt := utf8Bytes_lt_256 text
  have hhex : hex.encode text = some (joinSp true ((utf8Bytes text).map hexPair)) :=
    encodeLoop_eq _ hlt true
  have hbin : bin.str_to_bin text = joinSp true ((utf8Bytes text).map bin.byteBits) := by
    rw [bin.str_to_bin, strToBinLoop_eq]
  refine ⟨by rw [hhex, joinSp_eq_intercalate], by rw [hbin, joinSp_eq_intercalate], ?_, ?_, ?_⟩
  · intro b hb
    obtain ⟨hp1, hp2, hp3⟩ := hexPair_facts b (hlt b hb)
    obtain ⟨hb1, hb2, hb3⟩ := byteBits_facts b (hlt b hb)
    exact ⟨hp1, hp2, hp3, hb1, hb2, hb3⟩
  · rw [← joinSp_eq_intercalate, joinSp_length,
      sum_map_length_const 2 _ (by
        intro g hg
        rcases List.mem_map.mp hg with ⟨b, _, rfl⟩
        rfl),
      List.length_map]
    by_cases hn : (utf8Bytes text).length = 0
    · simp [hn]
    · rw [if_neg hn, if_pos rfl]
      omega
  · rw [hbin, joinSp_length,
      sum_map_length_const 8 _ (by
        intro g hg
        rcases List.mem_map.mp hg with ⟨b, hb, rfl⟩
        exact (byteBits_facts b (hlt b hb)).1),
      List.length_map]
    by_cases hn : (utf8Bytes text).length = 0
    · simp [hn]
    · rw [if_neg hn, if_pos rfl]
      omega

theorem C5_witness :
    (hexPair 72).length = 2 ∧ digitStringVal 16 (hexPair 72) = 72 ∧
    (bin.byteBits 72).length = 8 ∧ digitStringVal 2 (bin.byteBits 72) = 72 := by
  obtain ⟨h1, _, h3, h4, _, h6⟩ := (C5_encode_shape ['H']).2.2.1 72 (by decide)
  exact ⟨h1, h3, h4, h6⟩

